import Mathlib

/-!
Verification of the `ldo_delegate_vp` aggregation pipeline.

Shallow embedding of `src/lib.rs` (fixed-point formatters, order-preserving
deduplication, RPC-URL redaction) and of the pipeline stages in `src/main.rs`
(paginated voter enumeration, chunked concurrent voting-power fetch with
response validation, ranking by voting power).

Modelling conventions:
* `Address` is `Nat`: addresses are fixed-width 20-byte identifiers compared
  byte-wise, and byte-wise lexicographic order on fixed-width big-endian byte
  strings coincides with numeric order of the represented value.
* `Amount` is `Nat`; wrapping `U256` arithmetic — the `pow` that computes the
  formatters' scaling factor and the `Sum` of amounts — is modelled explicitly
  with reduction modulo `2 ^ 256`, and the panicking division by a zero
  (fully wrapped) factor is modelled by returning `none`.
* Rust `String`s are modelled as `List Char` (all produced characters are
  ASCII, so byte indexing agrees with character indexing); top-level formatter
  results are packaged as `String`.
* The concurrent `buffer_unordered` stream is modelled by quantifying over an
  arbitrary permutation of the per-chunk results: the driver loop receives the
  chunk results in some completion order, which is a permutation of the
  chunk-index order.
-/

namespace LdoDelegateVp

abbrev PowerEntry := Nat × Nat

def U256_MOD : Nat := 2 ^ 256

/-- Models `U256::from(10).pow(U256::from(decimals))` at `src/lib.rs` lines 30
and 63: `ruint`'s `pow` wraps on overflow, so the factor is the exact power
reduced modulo `2 ^ 256` (for `decimals ≥ 78` this wraps; for
`decimals ≥ 256` it is `0`, since `2 ^ 256` divides `10 ^ decimals`). -/
def u256Pow10 (decimals : Nat) : Nat :=
  10 ^ decimals % U256_MOD

/-- Decimal digit characters of `n`, most significant first, with explicit
fuel (the fuel `n + 1` always suffices); models Rust's integer `Display`. -/
def natDigitsAux : Nat → Nat → List Char
  | 0, _ => []
  | f + 1, n =>
    if n < 10 then [Nat.digitChar n]
    else natDigitsAux f (n / 10) ++ [Nat.digitChar (n % 10)]

/-- Decimal representation of `n` as a list of digit characters. -/
def natDigits (n : Nat) : List Char :=
  natDigitsAux (n + 1) n

/-- Models Rust `format!("{:0>width$}", x)`: left-pad with `'0'` up to `w`
characters, leaving the string unchanged when it is already at least that
long. -/
def padLeftZeros (s : List Char) (w : Nat) : List Char :=
  List.replicate (w - s.length) '0' ++ s

/-- Models Rust `str::trim_end_matches('0')`. -/
def trimTrailingZeros (s : List Char) : List Char :=
  (s.reverse.dropWhile (fun c => c == '0')).reverse

/-- From `src/lib.rs` lines 29-42 (`format_units`): fixed-point decimal
rendering of `value` scaled by the (wrapping) `U256` power of ten. `none`
models the panic of `ruint`'s division when the wrapped factor is zero
(`decimals ≥ 256`). -/
def format_units (value decimals : Nat) : Option String :=
  let factor := u256Pow10 decimals
  if factor = 0 then none
  else
    let whole := value / factor
    let fractional := value % factor
    if fractional = 0 then
      some ⟨natDigits whole⟩
    else
      some ⟨natDigits whole ++ ['.'] ++
        trimTrailingZeros (padLeftZeros (natDigits fractional) decimals)⟩

/-- From `src/lib.rs` lines 68-76: display precision selected from the whole part's
magnitude. -/
def displayDecimals (whole decimals : Nat) : Nat :=
  if 10000 ≤ whole then 0
  else if 100 ≤ whole then 2
  else if 1 ≤ whole then 4
  else decimals

/-- From `src/lib.rs` lines 96-106 (`add_thousand_separators`), as a recursion over
the characters with their index `i`: a comma is emitted before character `i`
iff `i > 0` and `(len - i) % 3 = 0`. -/
def addSepAux (len : Nat) : Nat → List Char → List Char
  | _, [] => []
  | i, c :: rest =>
    (if 0 < i ∧ (len - i) % 3 = 0 then [',', c] else [c]) ++ addSepAux len (i + 1) rest

def add_thousand_separators (s : List Char) : List Char :=
  addSepAux s.length 0 s

/-- From `src/lib.rs` lines 62-93 (`format_units_human`). `none` models a
panic: either the division by a zero wrapped factor (`decimals ≥ 256`) or an
out-of-bounds byte slice at line 85 (the slice guard; proved unreachable once
the factor is nonzero). -/
def format_units_human (value decimals : Nat) : Option String :=
  let factor := u256Pow10 decimals
  if factor = 0 then none
  else
    let whole := value / factor
    let fractional := value % factor
    let dd := displayDecimals whole decimals
    let whole_str := add_thousand_separators (natDigits whole)
    if fractional = 0 ∨ dd = 0 then
      some ⟨whole_str⟩
    else
      let fractional_str := padLeftZeros (natDigits fractional) decimals
      if min dd decimals ≤ fractional_str.length then
        let truncated := fractional_str.take (min dd decimals)
        let trimmed := trimTrailingZeros truncated
        if trimmed = [] then some ⟨whole_str⟩
        else some ⟨whole_str ++ ['.'] ++ trimmed⟩
      else none

/-- From `src/lib.rs` lines 122-131 (`unique_preserve_order`), with the `HashSet`
of already-seen addresses modelled as a list queried by membership. -/
def upoAux (seen : List Nat) : List Nat → List Nat
  | [] => []
  | a :: rest => if a ∈ seen then upoAux seen rest else a :: upoAux (a :: seen) rest

def unique_preserve_order (l : List Nat) : List Nat :=
  upoAux [] l

/-- From `src/main.rs` lines 94-116: the pagination loop over `getDelegatedVoters`.
The collaborator's successive page responses are the list `pages` (the page at
offset `i * pageSize` is `pages[i]`, as the loop advances the offset by
`pageSize` after every full page). Returns the number of collaborator calls
made together with the accumulated voters. The `[]` case is a model artifact
for an exhausted mock script and is unreachable whenever some page is shorter
than `pageSize`. -/
def enumVoters (pageSize : Nat) : List (List Nat) → Nat × List Nat
  | [] => (0, [])
  | page :: rest =>
    if page = [] then (1, [])
    else if page.length < pageSize then (1, page)
    else
      let r := enumVoters pageSize rest
      (r.1 + 1, page ++ r.2)

/-- Helper for `chunks`: `cur` holds the current partially-filled chunk in
reverse order (always shorter than `c`). -/
def chunksAux (c : Nat) (cur : List Nat) : List Nat → List (List Nat)
  | [] => if cur = [] then [] else [cur.reverse]
  | a :: rest =>
    if cur.length + 1 = c then (a :: cur).reverse :: chunksAux c [] rest
    else chunksAux c (a :: cur) rest

/-- Models Rust `slice::chunks(c)` (for `c ≥ 1`, which the driver enforces):
contiguous chunks of size `c`, the last one possibly shorter. -/
def chunks (c : Nat) (l : List Nat) : List (List Nat) :=
  chunksAux c [] l

/-- From `src/main.rs` lines 136-161: one chunk's async block after the RPC call
returned `balances` — validate the response length against the chunk length
(lines 149-154) and zip addresses with balances (lines 156-161). The error
carries the observed and the expected count. -/
def chunkEntries (chunk : List Nat) (balances : List Nat) :
    Except (Nat × Nat) (List PowerEntry) :=
  if balances.length = chunk.length then .ok (chunk.zip balances)
  else .error (balances.length, chunk.length)

/-- From `src/main.rs` lines 166-169: the driver loop draining the
`buffer_unordered` stream — append each arriving chunk's pairs, aborting the
whole operation at the first error received. -/
def collectResults :
    List (Except (Nat × Nat) (List PowerEntry)) → Except (Nat × Nat) (List PowerEntry)
  | [] => .ok []
  | r :: rest =>
    match r with
    | .error e => .error e
    | .ok p =>
      match collectResults rest with
      | .error e => .error e
      | .ok ps => .ok (p ++ ps)

/-- The per-chunk workload of the power-fetch stage: the chunks of the address
list, in chunk-index order, each paired with the collaborator's balance
response for that chunk. -/
def chunkBatches (chunkSize : Nat) (addresses : List Nat)
    (responses : List (List Nat)) : List (List Nat × List Nat) :=
  (chunks chunkSize addresses).zip responses

/-- The power-fetch stage as observed by the driver loop: `completed` is the
list of per-chunk batches in the order their requests completed (some
permutation of `chunkBatches ...`, see `buffer_unordered`). -/
def fetchPowers (completed : List (List Nat × List Nat)) :
    Except (Nat × Nat) (List PowerEntry) :=
  collectResults (completed.map fun cb => chunkEntries cb.1 cb.2)

/-- From `src/main.rs` line 172: the sort comparator
`b.1.cmp(&a.1).then_with(|| a.0.cmp(&b.0))` as a relation — descending by
amount, ties broken by ascending address. -/
def rankLE (a b : PowerEntry) : Prop :=
  b.2 < a.2 ∨ (a.2 = b.2 ∧ a.1 ≤ b.1)

instance : DecidableRel rankLE := fun a b => by
  unfold rankLE
  infer_instance

instance : IsTotal PowerEntry rankLE := by
  refine ⟨fun a b => ?_⟩
  obtain ⟨a1, a2⟩ := a
  obtain ⟨b1, b2⟩ := b
  unfold rankLE
  simp only
  omega

instance : IsTrans PowerEntry rankLE := by
  refine ⟨fun a b c h1 h2 => ?_⟩
  obtain ⟨a1, a2⟩ := a
  obtain ⟨b1, b2⟩ := b
  obtain ⟨c1, c2⟩ := c
  unfold rankLE at h1 h2 ⊢
  simp only at h1 h2 ⊢
  omega

instance : IsAntisymm PowerEntry rankLE := by
  refine ⟨fun a b h1 h2 => ?_⟩
  obtain ⟨a1, a2⟩ := a
  obtain ⟨b1, b2⟩ := b
  unfold rankLE at h1 h2
  simp only at h1 h2
  have hfst : a1 = b1 := by omega
  have hsnd : a2 = b2 := by omega
  rw [hfst, hsnd]

/-- The sort at `src/main.rs` line 172. `rankLE` is total, transitive and
antisymmetric (comparator equality implies equality of the pairs), so every
correct sort — in particular Rust's stable `sort_by` — produces this list. -/
def sortEntries (l : List PowerEntry) : List PowerEntry :=
  l.insertionSort rankLE

/-- Models the `U256` `Sum` at `src/main.rs` line 179: 256-bit addition wraps,
so the fold reduces modulo `2 ^ 256` at every step. -/
def u256Sum (l : List Nat) : Nat :=
  l.foldl (fun a b => (a + b) % U256_MOD) 0

structure RankedResult where
  active : List PowerEntry
  inactive : List PowerEntry
  totalPower : Nat
deriving DecidableEq

/-- From `src/main.rs` lines 172-179: sort, partition into non-zero and zero
voting power (preserving sorted order), and total the active amounts. -/
def rank (entries : List PowerEntry) : RankedResult :=
  let sorted := sortEntries entries
  let p := sorted.partition fun e => !(e.2 == 0)
  { active := p.1, inactive := p.2, totalPower := u256Sum (p.1.map Prod.snd) }

/-- A parsed URL with a host, as produced by the `url` crate's `Url::parse`
at `src/lib.rs` line 157 (the parser itself is the external collaborator; the
crate normalizes default ports to absent). -/
structure ParsedUrl where
  scheme : List Char
  username : List Char
  password : Option (List Char)
  host : List Char
  port : Option Nat
  path : List Char
  query : Option (List Char)
  fragment : Option (List Char)
deriving DecidableEq

/-- Models `Url::to_string` for a URL with a host: scheme, `://`, userinfo when
present, host, explicit port, path, query, fragment. -/
def serializeUrl (u : ParsedUrl) : List Char :=
  u.scheme ++ [':', '/', '/'] ++
  (if u.username = [] ∧ u.password = none then []
   else
     u.username ++
     (match u.password with
      | some p => ':' :: p
      | none => []) ++ ['@']) ++
  u.host ++
  (match u.port with
   | some p => ':' :: natDigits p
   | none => []) ++
  u.path ++
  (match u.query with
   | some q => '?' :: q
   | none => []) ++
  (match u.fragment with
   | some f => '#' :: f
   | none => [])

/-- Models Rust `str::trim_end_matches('/')` at `src/lib.rs` line 167. -/
def trimTrailingSlashes (s : List Char) : List Char :=
  (s.reverse.dropWhile (fun c => c == '/')).reverse

/-- From `src/lib.rs` lines 157-167 (`redact_rpc_url`, parsed-URL branch): clear
username, password, path, query and fragment, serialize, and trim the
trailing slash the serializer adds for an empty path. -/
def redact_rpc_url (u : ParsedUrl) : List Char :=
  trimTrailingSlashes (serializeUrl
    { u with username := [], password := none, path := [], query := none, fragment := none })

/-- The spec's description of `formatHuman` (C5), written independently of the
code path: choose the display-decimals count from the whole part's magnitude,
group the whole part, truncate the zero-padded fractional string to that
length, trim trailing zeros, and omit the fractional part entirely when the
trimmed string is empty. -/
def formatHumanSpec (value decimals : Nat) : String :=
  let whole := value / 10 ^ decimals
  let fractional := value % 10 ^ decimals
  let dd := displayDecimals whole decimals
  let whole_str := add_thousand_separators (natDigits whole)
  let trimmed :=
    trimTrailingZeros ((padLeftZeros (natDigits fractional) decimals).take dd)
  if trimmed = [] then ⟨whole_str⟩ else ⟨whole_str ++ ['.'] ++ trimmed⟩

/-! ### Supporting lemmas -/

theorem natDigitsAux_length_le (f : Nat) :
    ∀ n d, 0 < d → n < 10 ^ d → (natDigitsAux f n).length ≤ d := by
  induction f with
  | zero => intro n d hd _; simp [natDigitsAux]
  | succ f ih =>
    intro n d hd hn
    by_cases h10 : n < 10
    · simpa [natDigitsAux, h10] using hd
    · have hd2 : 2 ≤ d := by
        by_contra hlt
        have hd1 : d = 1 := by omega
        subst hd1
        exact h10 (by simpa using hn)
      have hrec : n / 10 < 10 ^ (d - 1) := by
        rw [Nat.div_lt_iff_lt_mul (by norm_num)]
        calc n < 10 ^ d := hn
        _ = 10 ^ (d - 1) * 10 := by
              rw [← pow_succ]
              congr 1
              omega
      have := ih (n / 10) (d - 1) (by omega) hrec
      simp only [natDigitsAux, if_neg h10, List.length_append, List.length_cons,
        List.length_nil]
      omega

theorem natDigits_length_le {n d : Nat} (hd : 0 < d) (hn : n < 10 ^ d) :
    (natDigits n).length ≤ d :=
  natDigitsAux_length_le (n + 1) n d hd hn

theorem padLeftZeros_length (s : List Char) (w : Nat) (h : s.length ≤ w) :
    (padLeftZeros s w).length = w := by
  simp [padLeftZeros]
  omega

/-- If the fractional remainder is nonzero the decimals count is positive. -/
theorem decimals_pos_of_frac_ne {v d : Nat} (h : v % 10 ^ d ≠ 0) : 0 < d := by
  rcases Nat.eq_zero_or_pos d with rfl | hd
  · exact absurd (by simp [Nat.mod_one]) h
  · exact hd

theorem padded_frac_length {v d : Nat} (h : v % 10 ^ d ≠ 0) :
    (padLeftZeros (natDigits (v % 10 ^ d)) d).length = d :=
  padLeftZeros_length _ _
    (natDigits_length_le (decimals_pos_of_frac_ne h)
      (Nat.mod_lt _ (Nat.pos_pow_of_pos d (by norm_num))))

theorem padLeftZeros_length_ge (s : List Char) (w : Nat) :
    w ≤ (padLeftZeros s w).length := by
  simp [padLeftZeros]
  omega

/-- For `decimals < 256` the wrapped factor is nonzero: `2 ^ 256` divides
`10 ^ d = 2 ^ d * 5 ^ d` only when `d ≥ 256`. -/
theorem u256Pow10_ne_zero {d : Nat} (h : d < 256) : u256Pow10 d ≠ 0 := by
  unfold u256Pow10
  intro h0
  have hdvd : U256_MOD ∣ 10 ^ d := Nat.dvd_of_mod_eq_zero h0
  have h10 : (10 : Nat) ^ d = 2 ^ d * 5 ^ d := by
    rw [← mul_pow]
    norm_num
  rw [h10, U256_MOD] at hdvd
  have hcop : Nat.Coprime (2 ^ 256) (5 ^ d) :=
    Nat.Coprime.pow 256 d (by decide)
  have h2 : (2 : Nat) ^ 256 ∣ 2 ^ d := hcop.dvd_of_dvd_mul_right hdvd
  have hle : (2 : Nat) ^ 256 ≤ 2 ^ d :=
    Nat.le_of_dvd (Nat.pos_pow_of_pos d (by norm_num)) h2
  have hlt : (2 : Nat) ^ d < 2 ^ 256 :=
    Nat.pow_lt_pow_right (by norm_num) h
  omega

/-- For `decimals ≥ 256` the wrapped factor is exactly zero. -/
theorem u256Pow10_eq_zero {d : Nat} (h : 256 ≤ d) : u256Pow10 d = 0 := by
  unfold u256Pow10
  have h1 : (2 : Nat) ^ 256 ∣ 2 ^ d := pow_dvd_pow 2 h
  have h2 : (2 : Nat) ^ d ∣ 10 ^ d := pow_dvd_pow_of_dvd (by norm_num) d
  have hdvd : U256_MOD ∣ 10 ^ d := by
    rw [U256_MOD]
    exact dvd_trans h1 h2
  rcases hdvd with ⟨k, hk⟩
  rw [hk, Nat.mul_mod_right]

/-- When the wrapped factor is nonzero, a nonzero fractional remainder has at
most `decimals` digits: below `10 ^ 78` the factor is exact, and otherwise the
remainder is below `2 ^ 256 ≤ 10 ^ 78 ≤ 10 ^ decimals`. -/
theorem natDigits_wrapped_frac_length_le {v d : Nat} (hfac : u256Pow10 d ≠ 0)
    (hf : v % u256Pow10 d ≠ 0) : (natDigits (v % u256Pow10 d)).length ≤ d := by
  have hfpos : 0 < u256Pow10 d := Nat.pos_of_ne_zero hfac
  have hd : 0 < d := by
    by_contra h0
    have hd0 : d = 0 := by omega
    subst hd0
    simp [u256Pow10, U256_MOD, Nat.mod_one] at hf
  rcases lt_or_le (10 ^ d) U256_MOD with hlt | hle
  · have hfac10 : u256Pow10 d = 10 ^ d := Nat.mod_eq_of_lt hlt
    rw [hfac10]
    exact natDigits_length_le hd
      (Nat.mod_lt _ (Nat.pos_pow_of_pos d (by norm_num)))
  · have h78 : 78 ≤ d := by
      by_contra hlt78
      have hmono : (10 : Nat) ^ d ≤ 10 ^ 77 :=
        Nat.pow_le_pow_right (by norm_num) (by omega)
      have hsmall : (10 : Nat) ^ 77 < U256_MOD := by norm_num [U256_MOD]
      omega
    have hfac_lt : u256Pow10 d < U256_MOD := by
      unfold u256Pow10
      exact Nat.mod_lt _ (by norm_num [U256_MOD])
    have hmod : v % u256Pow10 d < U256_MOD :=
      lt_trans (Nat.mod_lt _ hfpos) hfac_lt
    have hbig : U256_MOD ≤ 10 ^ 78 := by norm_num [U256_MOD]
    have hlen := natDigits_length_le (by norm_num : 0 < 78)
      (lt_of_lt_of_le hmod hbig)
    omega

theorem padded_wrapped_frac_length {v d : Nat} (hfac : u256Pow10 d ≠ 0)
    (hf : v % u256Pow10 d ≠ 0) :
    (padLeftZeros (natDigits (v % u256Pow10 d)) d).length = d :=
  padLeftZeros_length _ _ (natDigits_wrapped_frac_length_le hfac hf)

theorem trimTrailingZeros_eq_nil_of_all_zero {s : List Char}
    (h : ∀ c ∈ s, c = '0') : trimTrailingZeros s = [] := by
  have : s.reverse.dropWhile (fun c => c == '0') = [] := by
    rw [List.dropWhile_eq_nil_iff]
    intro c hc
    simpa using h c (List.mem_reverse.mp hc)
  simp [trimTrailingZeros, this]

theorem padLeftZeros_natDigits_zero_all_zero (d : Nat) :
    ∀ c ∈ padLeftZeros (natDigits 0) d, c = '0' := by
  intro c hc
  simp only [padLeftZeros, List.mem_append] at hc
  rcases hc with hc | hc
  · exact (List.eq_of_mem_replicate hc)
  · simpa [natDigits, natDigitsAux] using hc

theorem take_min_length {α : Type} (s : List α) (n : Nat) :
    s.take n = s.take (min n s.length) := by
  rcases le_or_lt n s.length with h | h
  · rw [Nat.min_eq_left h]
  · rw [Nat.min_eq_right h.le, List.take_of_length_le h.le,
      List.take_of_length_le le_rfl]

/-! ### C10 -/

/-- C10 counterexample: `format_units_human` does panic for some inputs — at
`decimals = 256` the wrapping `U256` pow makes the factor `0` and the
division panics (modelled as `none`), for every value. -/
theorem format_units_human_panics_at_256 :
    format_units_human 0 256 = none ∧ format_units_human (10 ^ 18) 256 = none := by
  refine ⟨by decide, by decide⟩

/-- C10 amended: for every value and every `decimals < 256` the wrapped
factor is nonzero and `format_units_human` does not panic: whenever the
fractional remainder (with respect to the wrapped factor) is nonzero, the
zero-padded fractional string has length exactly `decimals`, so the byte
slice up to `min display_decimals decimals` at `src/lib.rs` line 85 is in
bounds; for `decimals ≥ 256` the wrapped factor is zero and the division at
`src/lib.rs` line 64 itself panics for every value. -/
theorem format_units_human_no_panic :
    (∀ v d, d < 256 →
      (format_units_human v d).isSome = true ∧
      (v % u256Pow10 d ≠ 0 →
        (padLeftZeros (natDigits (v % u256Pow10 d)) d).length = d ∧
        min (displayDecimals (v / u256Pow10 d) d) d ≤
          (padLeftZeros (natDigits (v % u256Pow10 d)) d).length)) ∧
    (∀ v d, 256 ≤ d → format_units_human v d = none) := by
  constructor
  · intro v d hd
    have hfz := u256Pow10_ne_zero hd
    constructor
    · simp only [format_units_human, if_neg hfz]
      by_cases hcase : v % u256Pow10 d = 0 ∨ displayDecimals (v / u256Pow10 d) d = 0
      · simp [hcase]
      · have hguard : min (displayDecimals (v / u256Pow10 d) d) d ≤
            (padLeftZeros (natDigits (v % u256Pow10 d)) d).length :=
          le_trans (Nat.min_le_right _ _) (padLeftZeros_length_ge _ _)
        simp only [if_neg hcase, if_pos hguard]
        split <;> rfl
    · intro hf
      refine ⟨padded_wrapped_frac_length hfz hf, ?_⟩
      rw [padded_wrapped_frac_length hfz hf]
      exact Nat.min_le_right _ _
  · intro v d hd
    have h0 := u256Pow10_eq_zero hd
    simp [format_units_human, h0]

/-- C10 witness: at `v = 1`, `d = 18` the function returns a value and the
padded fractional string has length exactly 18. -/
theorem format_units_human_no_panic_witness :
    (format_units_human 1 18).isSome = true ∧
    (padLeftZeros (natDigits (1 % u256Pow10 18)) 18).length = 18 :=
  ⟨(format_units_human_no_panic.1 1 18 (by decide)).1,
    ((format_units_human_no_panic.1 1 18 (by decide)).2 (by decide)).1⟩

/-! ### C4 -/

/-- C4 counterexample: the source computes the factor with `U256`'s wrapping
`pow`, so at `decimals = 78` and `value = 10 ^ 78 % 2 ^ 256` (a representable
`U256` with `value % 10 ^ 78 ≠ 0`) the program prints `"1"` — the wrapped
factor equals the value — while the claim's exact-`10 ^ 78` formula demands a
`"0.…"` string. -/
theorem format_units_wrapped_factor :
    format_units (10 ^ 78 % 2 ^ 256) 78 = some "1" ∧
    (10 ^ 78 % 2 ^ 256) % 10 ^ 78 ≠ 0 ∧
    format_units (10 ^ 78 % 2 ^ 256) 78 ≠
      some ⟨natDigits ((10 ^ 78 % 2 ^ 256) / 10 ^ 78) ++ ['.'] ++
        trimTrailingZeros
          (padLeftZeros (natDigits ((10 ^ 78 % 2 ^ 256) % 10 ^ 78)) 78)⟩ := by
  refine ⟨by decide, by decide, by decide⟩

/-- C4 amended: for every value and every decimals count whose power of ten
fits in a `U256` (so `decimals ≤ 77` and the wrapping pow is exact),
`format_units` returns the plain decimal of `value / 10 ^ decimals` when the
remainder is zero, and otherwise `"{whole}.{fractional}"` where the fractional
part is the remainder left-padded with zeros to exactly `decimals` digits with
trailing zeros stripped; in particular `format_units (10 ^ 18) 18 = "1"`,
`format_units (10 ^ 18 + 1) 18 = "1.000000000000000001"` and
`format_units 0 18 = "0"`. For larger decimals the factor wraps modulo
`2 ^ 256` and the formula no longer holds. -/
theorem format_units_exact :
    (∀ v d, 10 ^ d < U256_MOD → v % 10 ^ d = 0 →
      format_units v d = some ⟨natDigits (v / 10 ^ d)⟩) ∧
    (∀ v d, 10 ^ d < U256_MOD → v % 10 ^ d ≠ 0 →
      format_units v d =
        some ⟨natDigits (v / 10 ^ d) ++ ['.'] ++
          trimTrailingZeros (padLeftZeros (natDigits (v % 10 ^ d)) d)⟩) ∧
    format_units (10 ^ 18) 18 = some "1" ∧
    format_units (10 ^ 18 + 1) 18 = some "1.000000000000000001" ∧
    format_units 0 18 = some "0" := by
  have hfac : ∀ d : Nat, 10 ^ d < U256_MOD → u256Pow10 d = 10 ^ d :=
    fun d hd => Nat.mod_eq_of_lt hd
  have hnz : ∀ d : Nat, ¬(10 : Nat) ^ d = 0 :=
    fun d => (Nat.pos_pow_of_pos d (by norm_num)).ne'
  refine ⟨?_, ?_, by decide, by decide, by decide⟩
  · intro v d hd h
    simp [format_units, hfac d hd, hnz d, h]
  · intro v d hd h
    simp [format_units, hfac d hd, hnz d, h]

/-- C4 witness: the whole-value branch applied at `value = 2000`,
`decimals = 3`. -/
theorem format_units_exact_witness :
    format_units 2000 3 = some ⟨natDigits (2000 / 10 ^ 3)⟩ :=
  format_units_exact.1 2000 3 (by decide) (by decide)

/-! ### C5 -/

set_option maxRecDepth 8192 in
/-- C5 counterexample: at `decimals = 78`, `value = 10 ^ 78 % 2 ^ 256` the
program's wrapped factor equals the value, so it prints `"1"`, while the
spec's exact-factor `formatHuman` (whole part `0`, full precision) renders a
`"0.…"` string: the claim's description fails for `decimals ≥ 78`. -/
theorem format_units_human_wrapped_factor :
    format_units_human (10 ^ 78 % 2 ^ 256) 78 = some "1" ∧
    formatHumanSpec (10 ^ 78 % 2 ^ 256) 78 ≠ "1" := by
  refine ⟨by decide, by decide⟩

/-- C5 amended: for every value and every decimals count whose power of ten
fits in a `U256` (`decimals ≤ 77`, so the wrapping pow is exact),
`format_units_human` behaves exactly as the spec describes — display decimals
chosen from the whole part's magnitude, thousand separators on the whole
part, truncation (not rounding) of the zero-padded fractional string,
trailing-zero trimming, omission of an empty fractional part — and in
particular `format_units_human (1234567 * 10 ^ 18) 18 = "1,234,567"`. For
larger decimals the wrapped factor diverges from the spec's exact power. -/
theorem format_units_human_spec_conform :
    (∀ v d, 10 ^ d < U256_MOD →
      format_units_human v d = some (formatHumanSpec v d)) ∧
    format_units_human (1234567 * 10 ^ 18) 18 = some "1,234,567" ∧
    format_units_human 1234560000000000000000 18 = some "1,234.56" ∧
    format_units_human 1 18 = some "0.000000000000000001" := by
  refine ⟨?_, by decide, by decide, by decide⟩
  intro v d h
  have hfac : u256Pow10 d = 10 ^ d := Nat.mod_eq_of_lt h
  have hnz : ¬(10 : Nat) ^ d = 0 := (Nat.pos_pow_of_pos d (by norm_num)).ne'
  simp only [format_units_human, formatHumanSpec, hfac, if_neg hnz]
  by_cases hf : v % 10 ^ d = 0
  · have hz :
        trimTrailingZeros ((padLeftZeros (natDigits 0) d).take
          (displayDecimals (v / 10 ^ d) d)) = [] := by
      refine trimTrailingZeros_eq_nil_of_all_zero ?_
      intro c hc
      exact padLeftZeros_natDigits_zero_all_zero d _ (List.mem_of_mem_take hc)
    simp [hf, hz]
  · by_cases hdd : displayDecimals (v / 10 ^ d) d = 0
    · simp [hf, hdd, trimTrailingZeros]
    · have hguard : min (displayDecimals (v / 10 ^ d) d) d ≤
          (padLeftZeros (natDigits (v % 10 ^ d)) d).length := by
        rw [padded_frac_length hf]
        exact Nat.min_le_right _ _
      have htake :
          (padLeftZeros (natDigits (v % 10 ^ d)) d).take
              (displayDecimals (v / 10 ^ d) d) =
            (padLeftZeros (natDigits (v % 10 ^ d)) d).take
              (min (displayDecimals (v / 10 ^ d) d) d) := by
        rw [take_min_length (padLeftZeros (natDigits (v % 10 ^ d)) d)
          (displayDecimals (v / 10 ^ d) d), padded_frac_length hf]
      have hor : ¬(v % 10 ^ d = 0 ∨ displayDecimals (v / 10 ^ d) d = 0) := by
        push_neg
        exact ⟨hf, hdd⟩
      rw [if_neg hor, if_pos hguard, htake]
      by_cases htr :
          trimTrailingZeros ((padLeftZeros (natDigits (v % 10 ^ d)) d).take
            (min (displayDecimals (v / 10 ^ d) d) d)) = []
      · rw [if_pos htr, if_pos htr]
      · rw [if_neg htr, if_neg htr]

/-- C5 witness: spec-conformance applied at a concrete value with
`decimals = 18`. -/
theorem format_units_human_spec_conform_witness :
    format_units_human 1234560000000000000000 18 =
      some (formatHumanSpec 1234560000000000000000 18) :=
  format_units_human_spec_conform.1 1234560000000000000000 18 (by decide)

/-! ### C6 -/

theorem mem_upoAux : ∀ (l seen : List Nat) (a : Nat),
    a ∈ upoAux seen l → a ∈ l ∧ a ∉ seen := by
  intro l
  induction l with
  | nil => intro seen a h; simp [upoAux] at h
  | cons b rest ih =>
    intro seen a h
    simp only [upoAux] at h
    by_cases hb : b ∈ seen
    · rw [if_pos hb] at h
      have := ih seen a h
      exact ⟨List.mem_cons_of_mem b this.1, this.2⟩
    · rw [if_neg hb] at h
      rcases List.mem_cons.mp h with rfl | h
      · exact ⟨List.mem_cons_self a rest, hb⟩
      · have := ih (b :: seen) a h
        refine ⟨List.mem_cons_of_mem b this.1, fun hs => this.2 ?_⟩
        exact List.mem_cons_of_mem b hs

theorem upoAux_nodup : ∀ (l seen : List Nat), (upoAux seen l).Nodup := by
  intro l
  induction l with
  | nil => intro seen; simp [upoAux]
  | cons b rest ih =>
    intro seen
    simp only [upoAux]
    by_cases hb : b ∈ seen
    · rw [if_pos hb]; exact ih seen
    · rw [if_neg hb]
      refine List.nodup_cons.mpr ⟨fun hmem => ?_, ih (b :: seen)⟩
      exact (mem_upoAux rest (b :: seen) b hmem).2 (List.mem_cons_self b seen)

theorem upoAux_of_nodup : ∀ (l seen : List Nat), l.Nodup →
    (∀ a ∈ l, a ∉ seen) → upoAux seen l = l := by
  intro l
  induction l with
  | nil => intro seen _ _; rfl
  | cons b rest ih =>
    intro seen hnd hdisj
    have hb : b ∉ seen := hdisj b (List.mem_cons_self b rest)
    simp only [upoAux, if_neg hb]
    congr 1
    refine ih (b :: seen) (List.nodup_cons.mp hnd).2 ?_
    intro a ha
    rcases List.nodup_cons.mp hnd with ⟨hbmem, _⟩
    intro hs
    rcases List.mem_cons.mp hs with rfl | hs
    · exact hbmem ha
    · exact hdisj a (List.mem_cons_of_mem b ha) hs

/-- C6: the deduplicator is idempotent, returns `[]` on `[]`, collapses an
all-duplicate list to a singleton, and keeps first-seen order on
`[a, b, a, c, b]`. -/
theorem unique_preserve_order_idempotent :
    (∀ xs, unique_preserve_order (unique_preserve_order xs) = unique_preserve_order xs) ∧
    unique_preserve_order [] = [] ∧
    (∀ a, unique_preserve_order [a, a, a, a] = [a]) ∧
    (∀ a b c, a ≠ b → a ≠ c → b ≠ c →
      unique_preserve_order [a, b, a, c, b] = [a, b, c]) := by
  refine ⟨?_, rfl, ?_, ?_⟩
  · intro xs
    exact upoAux_of_nodup (upoAux [] xs) [] (upoAux_nodup xs []) (by simp)
  · intro a
    simp [unique_preserve_order, upoAux]
  · intro a b c hab hac hbc
    simp [unique_preserve_order, upoAux, hab, hac, hbc, Ne.symm hab,
      Ne.symm hac, Ne.symm hbc]

/-- C6 witness: idempotence and the order-preservation instances at the
concrete addresses `1`, `2`, `3`. -/
theorem unique_preserve_order_idempotent_witness :
    unique_preserve_order (unique_preserve_order [1, 2, 1, 3, 2]) =
      unique_preserve_order [1, 2, 1, 3, 2] ∧
    unique_preserve_order [7, 7, 7, 7] = [7] ∧
    unique_preserve_order [1, 2, 1, 3, 2] = [1, 2, 3] :=
  ⟨unique_preserve_order_idempotent.1 [1, 2, 1, 3, 2],
    unique_preserve_order_idempotent.2.2.1 7,
    unique_preserve_order_idempotent.2.2.2 1 2 3 (by decide) (by decide) (by decide)⟩

/-! ### C7 -/

/-- C7: when every page before the `k`-th has full length and the `k`-th page
is short (`k = front.length + 1`), enumeration makes exactly `k` collaborator
calls and returns the concatenation of pages `1..k`; an immediately-empty
first page yields an empty result after exactly one call. -/
theorem enumVoters_stops_at_first_short_page :
    (∀ (pageSize : Nat) (front : List (List Nat)) (page : List Nat)
        (rest : List (List Nat)), 0 < pageSize →
      (∀ p ∈ front, pageSize ≤ p.length) → page.length < pageSize →
      enumVoters pageSize (front ++ page :: rest) =
        (front.length + 1, (front ++ [page]).flatten)) ∧
    (∀ (pageSize : Nat) (rest : List (List Nat)),
      enumVoters pageSize ([] :: rest) = (1, [])) := by
  constructor
  · intro pageSize front
    induction front with
    | nil =>
      intro page rest _ _ hshort
      by_cases hnil : page = ([] : List Nat)
      · subst hnil
        simp [enumVoters]
      · simp [enumVoters, hnil, hshort]
    | cons p front ih =>
      intro page rest hps hfull hshort
      have hp : pageSize ≤ p.length := hfull p (List.mem_cons_self p front)
      have hpnil : p ≠ ([] : List Nat) := by
        intro h
        rw [h] at hp
        simp at hp
        omega
      have hplen : ¬p.length < pageSize := by omega
      have := ih page rest hps (fun q hq => hfull q (List.mem_cons_of_mem p hq)) hshort
      simp only [List.cons_append, enumVoters, if_neg hpnil, if_neg hplen,
        List.append_eq]
      rw [this]
      simp [List.flatten_cons]
  · intro pageSize rest
    simp [enumVoters]

/-- C7 witness: pages `[[1, 2], [3]]` with `pageSize = 2` (two calls, voters
`[1, 2, 3]`), and an immediately-empty first page (one call, no voters). -/
theorem enumVoters_stops_at_first_short_page_witness :
    enumVoters 2 [[1, 2], [3]] = (2, [1, 2, 3]) ∧
    enumVoters 2 [[], [9]] = (1, []) := by
  constructor
  · have := enumVoters_stops_at_first_short_page.1 2 [[1, 2]] [3] []
      (by decide) (by decide) (by decide)
    simpa using this
  · exact enumVoters_stops_at_first_short_page.2 2 [[9]]

/-! ### Ranking order facts -/

theorem sortEntries_perm (l : List PowerEntry) : (sortEntries l).Perm l :=
  List.perm_insertionSort rankLE l

theorem sortEntries_sorted (l : List PowerEntry) : (sortEntries l).Sorted rankLE :=
  List.sorted_insertionSort rankLE l

/-- The relation `rankLE` is a total, antisymmetric order, so the sorted permutation is
unique: any sorted permutation of `l` is `sortEntries l`. -/
theorem sortEntries_unique {l s : List PowerEntry} (hp : s.Perm l)
    (hs : s.Sorted rankLE) : s = sortEntries l :=
  List.eq_of_perm_of_sorted (hp.trans (sortEntries_perm l).symm) hs
    (sortEntries_sorted l)

theorem sortEntries_eq_of_perm {l₁ l₂ : List PowerEntry} (h : l₁.Perm l₂) :
    sortEntries l₁ = sortEntries l₂ :=
  sortEntries_unique ((sortEntries_perm l₁).trans h) (sortEntries_sorted l₁)

theorem rank_eq_of_perm {l₁ l₂ : List PowerEntry} (h : l₁.Perm l₂) :
    rank l₁ = rank l₂ := by
  unfold rank
  rw [sortEntries_eq_of_perm h]

theorem flatten_perm_of_perm {α : Type} {l₁ l₂ : List (List α)}
    (h : l₁.Perm l₂) : l₁.flatten.Perm l₂.flatten := by
  induction h with
  | nil => exact List.Perm.refl _
  | cons x _ ih => simpa [List.flatten_cons] using List.Perm.append_left x ih
  | swap x y l =>
    simp only [List.flatten_cons]
    have h1 : (y ++ x) ++ l.flatten = y ++ (x ++ l.flatten) := List.append_assoc _ _ _
    have h2 : (x ++ y) ++ l.flatten = x ++ (y ++ l.flatten) := List.append_assoc _ _ _
    rw [← h1, ← h2]
    exact List.Perm.append_right _ List.perm_append_comm
  | trans _ _ ih1 ih2 => exact ih1.trans ih2

/-! ### Wrapping 256-bit summation -/

theorem u256Sum_foldl (l : List Nat) :
    ∀ a, l.foldl (fun x y => (x + y) % U256_MOD) (a % U256_MOD) =
      (a + l.sum) % U256_MOD := by
  induction l with
  | nil => intro a; simp
  | cons b l ih =>
    intro a
    simp only [List.foldl_cons]
    rw [Nat.mod_add_mod, ih (a + b), List.sum_cons]
    congr 1
    omega

theorem u256Sum_eq_sum_mod (l : List Nat) : u256Sum l = l.sum % U256_MOD := by
  have h := u256Sum_foldl l 0
  rw [Nat.zero_mod] at h
  simpa [u256Sum] using h

/-! ### Power-fetch stage -/

theorem fetchPowers_ok_of_valid :
    ∀ l : List (List Nat × List Nat), (∀ cb ∈ l, (cb.2).length = (cb.1).length) →
      fetchPowers l = .ok ((l.map fun cb => (cb.1).zip cb.2).flatten) := by
  intro l
  induction l with
  | nil => intro _; rfl
  | cons cb l ih =>
    intro h
    have hcb := h cb (List.mem_cons_self cb l)
    have hrest := ih fun x hx => h x (List.mem_cons_of_mem cb hx)
    have hhead : chunkEntries cb.1 cb.2 = .ok ((cb.1).zip cb.2) := by
      simp [chunkEntries, hcb]
    simp only [fetchPowers, List.map_cons] at hrest ⊢
    simp only [collectResults, hhead]
    rw [hrest]
    simp [List.flatten_cons]

theorem fetchPowers_error_of_invalid :
    ∀ l : List (List Nat × List Nat), (∃ cb ∈ l, (cb.2).length ≠ (cb.1).length) →
      ∃ cb ∈ l, (cb.2).length ≠ (cb.1).length ∧
        fetchPowers l = .error ((cb.2).length, (cb.1).length) := by
  intro l
  induction l with
  | nil =>
    rintro ⟨cb, hcb, -⟩
    cases hcb
  | cons cb l ih =>
    intro h
    by_cases hcb : (cb.2).length = (cb.1).length
    · have hex : ∃ x ∈ l, (x.2).length ≠ (x.1).length := by
        rcases h with ⟨x, hx, hxne⟩
        rcases List.mem_cons.mp hx with rfl | hx
        · exact absurd hcb hxne
        · exact ⟨x, hx, hxne⟩
      rcases ih hex with ⟨x, hx, hxne, hres⟩
      refine ⟨x, List.mem_cons_of_mem cb hx, hxne, ?_⟩
      have hhead : chunkEntries cb.1 cb.2 = .ok ((cb.1).zip cb.2) := by
        simp [chunkEntries, hcb]
      simp only [fetchPowers, List.map_cons] at hres ⊢
      simp only [collectResults, hhead]
      rw [hres]
    · refine ⟨cb, List.mem_cons_self cb l, hcb, ?_⟩
      have hhead : chunkEntries cb.1 cb.2 = .error ((cb.2).length, (cb.1).length) := by
        simp [chunkEntries, hcb]
      simp only [fetchPowers, List.map_cons, collectResults, hhead]

/-! ### C1 -/

/-- C1 counterexample: with addresses `[0, 1]`, chunk size `1` and responses
`[[10]], [[20]]`, receiving the second chunk's result first is a valid
completion order (a permutation of the chunk-index order), yet the sequence
handed to ranking is `[(1, 20), (0, 10)]`, not the chunk-index concatenation
`[(0, 10), (1, 20)]`: the pre-ranking sequence depends on completion order. -/
theorem fetchPowers_completion_order_dependent :
    ([([1], [20]), ([0], [10])] : List (List Nat × List Nat)).Perm
        (chunkBatches 1 [0, 1] [[10], [20]]) ∧
    fetchPowers [([1], [20]), ([0], [10])] = .ok [(1, 20), (0, 10)] ∧
    fetchPowers (chunkBatches 1 [0, 1] [[10], [20]]) = .ok [(0, 10), (1, 20)] ∧
    fetchPowers [([1], [20]), ([0], [10])] ≠
      fetchPowers (chunkBatches 1 [0, 1] [[10], [20]]) := by
  refine ⟨by decide, rfl, rfl, ?_⟩
  intro h
  have h' : ([(1, 20), (0, 10)] : List PowerEntry) = [(0, 10), (1, 20)] := by
    have h1 : fetchPowers [([1], [20]), ([0], [10])] =
        .ok [((1 : Nat), (20 : Nat)), (0, 10)] := rfl
    have h2 : fetchPowers (chunkBatches 1 [0, 1] [[10], [20]]) =
        .ok [((0 : Nat), (10 : Nat)), (1, 20)] := rfl
    rw [h1, h2] at h
    exact Except.ok.inj h
  exact absurd h' (by decide)

/-- C1 amended: for every address list, chunk size, per-chunk response
assignment and completion order (any permutation of the chunk-index order),
the successful pre-ranking sequence is a permutation — not necessarily the
equal sequence — of the chunks' entries concatenated in chunk-index order,
and the ranked result computed from it is independent of the completion
order. -/
theorem fetchPowers_perm_of_completion_order :
    ∀ (chunkSize : Nat) (addresses : List Nat) (responses : List (List Nat))
      (completed : List (List Nat × List Nat)) (es es' : List PowerEntry),
      completed.Perm (chunkBatches chunkSize addresses responses) →
      fetchPowers completed = .ok es →
      fetchPowers (chunkBatches chunkSize addresses responses) = .ok es' →
      es.Perm es' ∧ rank es = rank es' := by
  intro cs addrs resps completed es es' hperm hok hok'
  have hvalid : ∀ cb ∈ completed, (cb.2).length = (cb.1).length := by
    by_contra hnv
    push_neg at hnv
    rcases fetchPowers_error_of_invalid completed hnv with ⟨cb, -, -, hres⟩
    rw [hres] at hok
    cases hok
  have hvalid' : ∀ cb ∈ chunkBatches cs addrs resps, (cb.2).length = (cb.1).length :=
    fun cb hcb => hvalid cb (hperm.mem_iff.mpr hcb)
  rw [fetchPowers_ok_of_valid completed hvalid] at hok
  rw [fetchPowers_ok_of_valid _ hvalid'] at hok'
  have hes := Except.ok.inj hok
  have hes' := Except.ok.inj hok'
  have hmapped := flatten_perm_of_perm
    (hperm.map fun cb : List Nat × List Nat => (cb.1).zip cb.2)
  rw [hes, hes'] at hmapped
  exact ⟨hmapped, rank_eq_of_perm hmapped⟩

/-- C1 witness: the amended theorem applied to the counterexample's
completion order. -/
theorem fetchPowers_perm_of_completion_order_witness :
    ([((1 : Nat), (20 : Nat)), (0, 10)] : List PowerEntry).Perm [(0, 10), (1, 20)] ∧
    rank [((1 : Nat), (20 : Nat)), (0, 10)] = rank [(0, 10), (1, 20)] :=
  fetchPowers_perm_of_completion_order 1 [0, 1] [[10], [20]]
    [([1], [20]), ([0], [10])] [(1, 20), (0, 10)] [(0, 10), (1, 20)]
    (by decide) rfl rfl

/-! ### C2 -/

/-- C2: whenever some chunk's response length differs from that chunk's
address count, the power-fetch stage fails — for every completion order —
with a length-mismatch error carrying the observed and expected counts of a
mismatching chunk, and no `PowerEntry` sequence at all is handed to the
ranking stage. -/
theorem fetchPowers_length_mismatch_fails :
    ∀ (chunkSize : Nat) (addresses : List Nat) (responses : List (List Nat))
      (completed : List (List Nat × List Nat)),
      completed.Perm (chunkBatches chunkSize addresses responses) →
      (∃ cb ∈ chunkBatches chunkSize addresses responses,
        (cb.2).length ≠ (cb.1).length) →
      (∃ cb ∈ chunkBatches chunkSize addresses responses,
        (cb.2).length ≠ (cb.1).length ∧
          fetchPowers completed = .error ((cb.2).length, (cb.1).length)) ∧
      ∀ es : List PowerEntry, fetchPowers completed ≠ .ok es := by
  intro cs addrs resps completed hperm hex
  have hexc : ∃ cb ∈ completed, (cb.2).length ≠ (cb.1).length := by
    rcases hex with ⟨cb, hcb, hne⟩
    exact ⟨cb, hperm.mem_iff.mpr hcb, hne⟩
  rcases fetchPowers_error_of_invalid completed hexc with ⟨cb, hcb, hne, hres⟩
  refine ⟨⟨cb, hperm.mem_iff.mp hcb, hne, hres⟩, ?_⟩
  intro es h
  rw [hres] at h
  cases h

/-- C2 witness: addresses `[1, 2, 3]` with chunk size `2` give chunks
`[[1, 2], [3]]`; a response of length 2 for the second chunk makes the whole
operation fail with the mismatch error and never return an `ok`. -/
theorem fetchPowers_length_mismatch_fails_witness :
    (∃ cb ∈ chunkBatches 2 [1, 2, 3] [[5, 6], [7, 8]],
      (cb.2).length ≠ (cb.1).length ∧
        fetchPowers (chunkBatches 2 [1, 2, 3] [[5, 6], [7, 8]]) =
          .error ((cb.2).length, (cb.1).length)) ∧
    ∀ es : List PowerEntry,
      fetchPowers (chunkBatches 2 [1, 2, 3] [[5, 6], [7, 8]]) ≠ .ok es :=
  fetchPowers_length_mismatch_fails 2 [1, 2, 3] [[5, 6], [7, 8]]
    (chunkBatches 2 [1, 2, 3] [[5, 6], [7, 8]]) (List.Perm.refl _)
    ⟨([3], [7, 8]), by decide, by decide⟩

/-! ### C3 -/

/-- C3 counterexample: at `A = 1 < B = 2`, `C = 3`, `D = 4` the ranked active
order and inactive list are as the claim states, but the total power of the
active entries `10 + 5 + 5` is `20`, not the claimed `15`. -/
theorem rank_example_totalPower_ne_15 :
    (1 : Nat) < 2 ∧
    (rank [(1, 5), (2, 5), (3, 0), (4, 10)]).active = [(4, 10), (1, 5), (2, 5)] ∧
    (rank [(1, 5), (2, 5), (3, 0), (4, 10)]).inactive = [(3, 0)] ∧
    (rank [(1, 5), (2, 5), (3, 0), (4, 10)]).totalPower = 20 ∧
    (rank [(1, 5), (2, 5), (3, 0), (4, 10)]).totalPower ≠ 15 := by
  refine ⟨by decide, by decide, by decide, by decide, by decide⟩

/-- C3 amended: ranking sorts the entries descending by amount with ties
broken by ascending address — a total, antisymmetric and hence deterministic
order (any sorted permutation of the input equals `sortEntries`) — and
partitions the sorted list into active (`amount ≠ 0`) and inactive
(`amount = 0`) preserving the sorted order; the example
`[(A, 5), (B, 5), (C, 0), (D, 10)]` with `A < B` yields active
`[(D, 10), (A, 5), (B, 5)]`, inactive `[(C, 0)]` and total power `20`
(not `15`: the active amounts sum to `10 + 5 + 5`). -/
theorem rank_sorts_and_partitions :
    (∀ entries : List PowerEntry,
      (sortEntries entries).Perm entries ∧
      (sortEntries entries).Sorted rankLE ∧
      (∀ l : List PowerEntry, l.Perm entries → l.Sorted rankLE →
        l = sortEntries entries) ∧
      (rank entries).active = (sortEntries entries).filter (fun e => !(e.2 == 0)) ∧
      (rank entries).inactive = (sortEntries entries).filter (fun e => e.2 == 0)) ∧
    (∀ A B C D : Nat, A < B →
      rank [(A, 5), (B, 5), (C, 0), (D, 10)] =
        ⟨[(D, 10), (A, 5), (B, 5)], [(C, 0)], 20⟩) := by
  constructor
  · intro entries
    refine ⟨sortEntries_perm entries, sortEntries_sorted entries,
      fun l hp hs => sortEntries_unique hp hs, ?_, ?_⟩
    · simp [rank, List.partition_eq_filter_filter]
    · simp only [rank, List.partition_eq_filter_filter]
      refine List.filter_congr ?_
      intro e _
      simp [Function.comp]
  · intro A B C D h
    have rDA : rankLE (D, 10) (A, 5) := by unfold rankLE; dsimp only; omega
    have rDB : rankLE (D, 10) (B, 5) := by unfold rankLE; dsimp only; omega
    have rDC : rankLE (D, 10) (C, 0) := by unfold rankLE; dsimp only; omega
    have rAB : rankLE (A, 5) (B, 5) := by unfold rankLE; dsimp only; omega
    have rAC : rankLE (A, 5) (C, 0) := by unfold rankLE; dsimp only; omega
    have rBC : rankLE (B, 5) (C, 0) := by unfold rankLE; dsimp only; omega
    have hsorted : ([(D, 10), (A, 5), (B, 5), (C, 0)] : List PowerEntry).Sorted
        rankLE := by
      refine List.sorted_cons.mpr ⟨?_, List.sorted_cons.mpr ⟨?_,
        List.sorted_cons.mpr ⟨?_, List.sorted_singleton _⟩⟩⟩
      · intro b hb
        simp only [List.mem_cons, List.not_mem_nil, or_false] at hb
        rcases hb with rfl | rfl | rfl
        exacts [rDA, rDB, rDC]
      · intro b hb
        simp only [List.mem_cons, List.not_mem_nil, or_false] at hb
        rcases hb with rfl | rfl
        exacts [rAB, rAC]
      · intro b hb
        simp only [List.mem_cons, List.not_mem_nil, or_false] at hb
        rcases hb with rfl
        exact rBC
    have hperm : ([(A, 5), (B, 5), (C, 0), (D, 10)] : List PowerEntry).Perm
        [(D, 10), (A, 5), (B, 5), (C, 0)] :=
      @List.perm_append_comm _ [(A, 5), (B, 5), (C, 0)] [(D, 10)]
    have hsort : sortEntries [(A, 5), (B, 5), (C, 0), (D, 10)] =
        [(D, 10), (A, 5), (B, 5), (C, 0)] :=
      (sortEntries_unique hperm.symm hsorted).symm
    simp +decide [rank, hsort, List.partition_eq_filter_filter, u256Sum, U256_MOD]

/-- C3 witness: the sorted-permutation uniqueness and the example, at
concrete addresses `1 < 2`. -/
theorem rank_sorts_and_partitions_witness :
    ([(4, 10), (1, 5), (2, 5), (3, 0)] : List PowerEntry) =
        sortEntries [(1, 5), (2, 5), (3, 0), (4, 10)] ∧
    rank [(1, 5), (2, 5), (3, 0), (4, 10)] =
      ⟨[(4, 10), (1, 5), (2, 5)], [(3, 0)], 20⟩ :=
  ⟨(rank_sorts_and_partitions.1 [(1, 5), (2, 5), (3, 0), (4, 10)]).2.2.1
      [(4, 10), (1, 5), (2, 5), (3, 0)] (by decide) (by decide),
    rank_sorts_and_partitions.2 1 2 3 4 (by decide)⟩

/-! ### C8 -/

/-- C8 counterexample: `totalPower` is a 256-bit (wrapping) sum, not
arbitrary-precision: two active amounts of `2 ^ 255` sum to `0`, while the
exact sum `2 ^ 256` is nonzero. -/
theorem rank_totalPower_wraps :
    (rank [(0, 2 ^ 255), (1, 2 ^ 255)]).totalPower = 0 ∧
    (2 ^ 255 + 2 ^ 255 : Nat) ≠ 0 := by
  refine ⟨by decide, by decide⟩

/-- C8 amended: `totalPower` is the sum of the active amounts computed in
256-bit arithmetic — it equals the exact sum reduced modulo `2 ^ 256`, and in
particular equals the exact sum whenever that sum is below `2 ^ 256` (no
widening beyond 256 bits happens). -/
theorem rank_totalPower_mod_2pow256 :
    ∀ entries : List PowerEntry,
      (rank entries).totalPower =
        ((rank entries).active.map Prod.snd).sum % U256_MOD ∧
      (((rank entries).active.map Prod.snd).sum < U256_MOD →
        (rank entries).totalPower = ((rank entries).active.map Prod.snd).sum) := by
  intro entries
  have h : (rank entries).totalPower =
      u256Sum ((rank entries).active.map Prod.snd) := rfl
  constructor
  · rw [h, u256Sum_eq_sum_mod]
  · intro hlt
    rw [h, u256Sum_eq_sum_mod, Nat.mod_eq_of_lt hlt]

/-- C8 witness: at the single entry `(1, 5)` the active sum fits in 256 bits
and `totalPower` is the exact sum. -/
theorem rank_totalPower_mod_2pow256_witness :
    (rank [(1, 5)]).totalPower = ((rank [(1, 5)]).active.map Prod.snd).sum :=
  (rank_totalPower_mod_2pow256 [(1, 5)]).2 (by decide)

/-! ### C9 -/

/-- C9: `redact_rpc_url` is noninterfering with respect to credentials and
request parameters: two parsed URLs agreeing on scheme, host and port — but
differing arbitrarily in username, password, path, query or fragment —
redact to the same string, and the redacted output is built from the scheme,
host and port alone. -/
theorem redact_rpc_url_noninterference :
    (∀ u₁ u₂ : ParsedUrl, u₁.scheme = u₂.scheme → u₁.host = u₂.host →
      u₁.port = u₂.port → redact_rpc_url u₁ = redact_rpc_url u₂) ∧
    (∀ u : ParsedUrl,
      redact_rpc_url u =
        trimTrailingSlashes (u.scheme ++ [':', '/', '/'] ++ u.host ++
          (match u.port with
           | some p => ':' :: natDigits p
           | none => []))) := by
  have hgen : ∀ u : ParsedUrl,
      redact_rpc_url u =
        trimTrailingSlashes (u.scheme ++ [':', '/', '/'] ++ u.host ++
          (match u.port with
           | some p => ':' :: natDigits p
           | none => [])) := by
    intro u
    obtain ⟨s, un, pw, h, p, pa, q, f⟩ := u
    cases p <;> simp [redact_rpc_url, serializeUrl]
  refine ⟨fun u₁ u₂ h1 h2 h3 => ?_, hgen⟩
  rw [hgen u₁, hgen u₂, h1, h2, h3]

/-- C9 witness: a URL with credentials, an API-key path, a query and a
fragment redacts identically to the bare scheme-host-port URL. -/
theorem redact_rpc_url_noninterference_witness :
    redact_rpc_url
        { scheme := "https".toList, username := "user".toList,
          password := some "pass".toList, host := "rpc.example.com".toList,
          port := some 8545, path := "/v3/secret-key".toList,
          query := some "api_key=secret".toList,
          fragment := some "frag".toList } =
      redact_rpc_url
        { scheme := "https".toList, username := [], password := none,
          host := "rpc.example.com".toList, port := some 8545, path := [],
          query := none, fragment := none } :=
  redact_rpc_url_noninterference.1 _ _ rfl rfl rfl

end LdoDelegateVp
